import Mathlib

/-!
Verification of the Nim game core from `game.cpp`.

The program plays normal-play Nim against an AI.  Its core is a memoized
minimax evaluator over game states (a list of pile sizes plus the player to
move, `1` = human, `2` = AI), with a canonical memo key obtained by sorting
the piles, plus a best-move selector that evaluates every child of the root.

The embedding below models:
* `is_terminal`, `key_of`, `generate_children`, `terminal_score` directly;
* the recursive `minimax` as a fuel-indexed function `minimax_fuel` (the fuel
  bounds the depth of the C++ call stack; `minimax_fuel_enough` shows that
  `sum of piles + 1` frames always suffice, so the fuel is immaterial), with
  `minimax` the resulting total function;
* `best_ai_move` on top of `minimax`, threading the memo table exactly as the
  source does;
* `minimax_nomemo`, the same recursion with the memo table removed, used as
  the reference point for the memoization-is-pure-optimization property.
-/

namespace NimGame

/-- `is_terminal(piles)` from the source: true iff every pile is zero. -/
def is_terminal (piles : List Nat) : Bool :=
  piles.all fun x => x == 0

/-- The player flip performed when a child node is created
(`node->player == 1 ? 2 : 1`). -/
def flip_player (player : Nat) : Nat :=
  if player = 1 then 2 else 1

/-- `key_of(piles, player)` from the source: it sorts a copy of `piles`
ascending and serializes it as the string `"v1,v2,...,|P<player>"`.  Decimal
digit strings contain neither `','` nor `'|'`, so that serialization is
injective on (sorted list, player) pairs; the key is therefore modelled as
the pair itself, which has exactly the same equality classes. -/
def key_of (piles : List Nat) (player : Nat) : List Nat × Nat :=
  (piles.insertionSort (· ≤ ·), player)

/-- `generate_children(node)` from the source: for each pile index `i` with
`piles[i] > 0` (indices ascending) and each `take` in `1..piles[i]`
(ascending; here `take = t + 1`), one child in which pile `i` is reduced by
`take` and the player is flipped.  A zero pile contributes nothing because
`List.range 0 = []`, matching the `continue` in the source. -/
def generate_children (piles : List Nat) (player : Nat) : List (List Nat × Nat) :=
  (List.range piles.length).flatMap fun i =>
    (List.range (piles.getD i 0)).map fun t =>
      (piles.set i (piles.getD i 0 - (t + 1)), flip_player player)

/-- `terminal_score(player_to_move)` from the source: `-1` if the AI
(player `2`) is to move on an empty board, `+1` otherwise. -/
def terminal_score (player_to_move : Nat) : Int :=
  if player_to_move = 2 then -1 else 1

/-- `INT_MIN` from `<climits>` (32-bit), the initial accumulator of the
maximizing loop. -/
def INT_MIN : Int := -2147483648

/-- `INT_MAX` from `<climits>` (32-bit), the initial accumulator of the
minimizing loop. -/
def INT_MAX : Int := 2147483647

/-- The memo table `unordered_map<string,int>`, modelled as an association
list from keys to scores (insertion never overwrites in the source: a key is
stored only after its lookup failed). -/
abbrev Memo := List ((List Nat × Nat) × Int)

/-- Nim-sum: the bitwise XOR of all pile sizes (the closed-form oracle of
classical Nim theory; not part of the source, used only to state properties). -/
def list_xor (l : List Nat) : Nat :=
  l.foldr (fun a b => a ^^^ b) 0

/- ### Structural lemmas about `generate_children` -/

theorem generate_children_nil (player : Nat) : generate_children [] player = [] := rfl

theorem generate_children_cons (v : Nat) (rest : List Nat) (player : Nat) :
    generate_children (v :: rest) player
      = ((List.range v).map fun t => ((v - (t + 1)) :: rest, flip_player player))
        ++ (generate_children rest player).map fun c => (v :: c.1, c.2) := by
  simp only [generate_children, List.length_cons, List.range_succ_eq_map,
    List.flatMap_cons, List.flatMap_map, List.map_flatMap]
  simp [List.getD_cons_succ, List.map_map, Function.comp_def]

/-- Membership characterization: the children of `(piles, player)` are exactly
the results of removing `take ∈ 1..piles[i]` from some pile `i`, with the
player flipped. -/
theorem mem_generate_children {piles : List Nat} {player : Nat} {c : List Nat × Nat} :
    c ∈ generate_children piles player
      ↔ ∃ i t, i < piles.length ∧ 1 ≤ t ∧ t ≤ piles.getD i 0
          ∧ c = (piles.set i (piles.getD i 0 - t), flip_player player) := by
  constructor
  · intro hc
    simp only [generate_children, List.mem_flatMap, List.mem_range, List.mem_map] at hc
    obtain ⟨i, hi, t, ht, rfl⟩ := hc
    exact ⟨i, t + 1, hi, Nat.le_add_left 1 t, ht, rfl⟩
  · rintro ⟨i, t, hi, ht1, ht2, rfl⟩
    simp only [generate_children, List.mem_flatMap, List.mem_range, List.mem_map]
    refine ⟨i, hi, t - 1, ?_, ?_⟩
    · omega
    · have : t - 1 + 1 = t := by omega
      rw [this]

/-- Removing `t ∈ 1..l[i]` objects from pile `i` strictly decreases the sum. -/
theorem sum_set_sub_lt {l : List Nat} {i t : Nat} (hi : i < l.length)
    (ht1 : 1 ≤ t) (ht2 : t ≤ l.getD i 0) :
    (l.set i (l.getD i 0 - t)).sum < l.sum := by
  induction l generalizing i with
  | nil => simp at hi
  | cons v rest ih =>
    cases i with
    | zero =>
      simp only [List.getD_cons_zero] at ht2 ⊢
      simp only [List.set_cons_zero, List.sum_cons]
      omega
    | succ j =>
      simp only [List.getD_cons_succ] at ht2 ⊢
      simp only [List.set_cons_succ, List.sum_cons]
      have := ih (by simpa using hi) ht2
      omega

/-- Every child has a strictly smaller total pile sum than its parent. -/
theorem sum_lt_of_mem_generate_children {piles : List Nat} {player : Nat}
    {c : List Nat × Nat} (hc : c ∈ generate_children piles player) :
    c.1.sum < piles.sum := by
  rw [mem_generate_children] at hc
  obtain ⟨i, t, hi, ht1, ht2, rfl⟩ := hc
  simpa using sum_set_sub_lt hi ht1 ht2

/-- The player recorded in every child is the flipped player. -/
theorem player_of_mem_generate_children {piles : List Nat} {player : Nat}
    {c : List Nat × Nat} (hc : c ∈ generate_children piles player) :
    c.2 = flip_player player := by
  rw [mem_generate_children] at hc
  obtain ⟨i, t, _, _, _, rfl⟩ := hc
  rfl

theorem flip_player_cases (player : Nat) :
    flip_player player = 1 ∨ flip_player player = 2 := by
  unfold flip_player
  split <;> simp

/- ### `is_terminal` basics -/

theorem is_terminal_iff {piles : List Nat} :
    is_terminal piles = true ↔ ∀ x ∈ piles, x = 0 := by
  simp [is_terminal, List.all_eq_true]

theorem sum_eq_zero_of_is_terminal {piles : List Nat} (h : is_terminal piles = true) :
    piles.sum = 0 := by
  rw [List.sum_eq_zero_iff]
  exact fun x hx => (is_terminal_iff.1 h) x hx

theorem is_terminal_eq_false_of_sum_pos {piles : List Nat} (h : piles.sum ≠ 0) :
    is_terminal piles = false := by
  rcases h' : is_terminal piles with _ | _
  · rfl
  · exact absurd (sum_eq_zero_of_is_terminal h') h

/-- A non-terminal state has at least one child (take the whole first
non-zero pile, for instance taking `1` from it). -/
theorem generate_children_ne_nil {piles : List Nat} (player : Nat)
    (h : is_terminal piles = false) :
    generate_children piles player ≠ [] := by
  have hex : ∃ x ∈ piles, x ≠ 0 := by
    by_contra hall
    push_neg at hall
    rw [← is_terminal_iff] at hall
    rw [hall] at h
    simp at h
  obtain ⟨x, hx, hx0⟩ := hex
  obtain ⟨i, hi, hxi⟩ := List.mem_iff_getElem.1 hx
  intro hnil
  have : (piles.set i (piles.getD i 0 - 1), flip_player player)
      ∈ generate_children piles player := by
    rw [mem_generate_children]
    refine ⟨i, 1, hi, le_refl 1, ?_, rfl⟩
    have : piles.getD i 0 = x := by
      rw [List.getD_eq_getElem?_getD, List.getElem?_eq_getElem hi, hxi]
      rfl
    omega
  rw [hnil] at this
  exact absurd this (List.not_mem_nil _)

/-- A terminal state has no children. -/
theorem generate_children_eq_nil_of_terminal {piles : List Nat} {player : Nat}
    (h : is_terminal piles = true) :
    generate_children piles player = [] := by
  rcases hgc : generate_children piles player with _ | ⟨c, rest⟩
  · rfl
  · have hc : c ∈ generate_children piles player := by rw [hgc]; exact List.mem_cons_self _ _
    rw [mem_generate_children] at hc
    obtain ⟨i, t, hi, ht1, ht2, _⟩ := hc
    have h0 : piles.getD i 0 = 0 := by
      have := is_terminal_iff.1 h
      have hmem : piles.getD i 0 ∈ piles := by
        rw [List.getD_eq_getElem?_getD, List.getElem?_eq_getElem hi]
        exact List.getElem_mem hi
      exact this _ hmem
    omega

/- ### The evaluators -/

/-- The minimax recursion with the memo table removed: terminal states score
`terminal_score`, the AI (player 2) maximizes over the children starting from
`INT_MIN`, the human minimizes starting from `INT_MAX`.  This is the
"brute-force recomputation without memoization" reference of spec §8, used to
state that the memo lookup is a pure optimization. -/
def minimax_nomemo (piles : List Nat) (player : Nat) : Int :=
  if is_terminal piles then terminal_score player
  else if player = 2 then
    ((generate_children piles player).attach.map
      fun c => minimax_nomemo c.1.1 c.1.2).foldl max INT_MIN
  else
    ((generate_children piles player).attach.map
      fun c => minimax_nomemo c.1.1 c.1.2).foldl min INT_MAX
termination_by piles.sum
decreasing_by
  all_goals exact sum_lt_of_mem_generate_children c.2

/-- `minimax(node, memo)` from the source, with an explicit fuel bounding the
depth of the C++ call stack (each level of recursion consumes one unit):
terminal check, then memo lookup, then the maximizing (player 2) or minimizing
fold over the children, threading the memo table through the child calls
exactly as the by-reference `unordered_map` is, and finally `memo[K] = score`
(a cons, since `K` is only stored after its lookup failed). -/
def minimax_fuel : Nat → List Nat → Nat → Memo → Option (Int × Memo)
  | 0, _, _, _ => none
  | fuel + 1, piles, player, memo =>
    if is_terminal piles then some (terminal_score player, memo)
    else
      match List.lookup (key_of piles player) memo with
      | some v => some (v, memo)
      | none =>
        if player = 2 then
          match (generate_children piles player).foldlM
              (fun acc c => (minimax_fuel fuel c.1 c.2 acc.2).map
                fun r => (max acc.1 r.1, r.2))
              (INT_MIN, memo) with
          | none => none
          | some r => some (r.1, (key_of piles player, r.1) :: r.2)
        else
          match (generate_children piles player).foldlM
              (fun acc c => (minimax_fuel fuel c.1 c.2 acc.2).map
                fun r => (min acc.1 r.1, r.2))
              (INT_MAX, memo) with
          | none => none
          | some r => some (r.1, (key_of piles player, r.1) :: r.2)

/-- The total `minimax`: `minimax_fuel` run with `piles.sum + 1` stack frames.
`minimax_fuel_enough` below proves this fuel always suffices (each move removes
at least one object, so the recursion depth is bounded by the pile sum); the
`getD` default is therefore never used. -/
def minimax (piles : List Nat) (player : Nat) (memo : Memo) : Int × Memo :=
  (minimax_fuel (piles.sum + 1) piles player memo).getD (0, memo)

/-- The move-identification loop of `best_ai_move`: scan for the first index at
which the child's piles differ from the current piles and report
`(index, piles[i] - child_piles[i])` (C++ `int` subtraction, hence `Int`). -/
def diff_move_aux : Nat → List Nat → List Nat → Option (Int × Int)
  | _, [], _ => none
  | _, _ :: _, [] => none
  | i, a :: as, b :: bs =>
    if a ≠ b then some ((i : Int), (a : Int) - (b : Int))
    else diff_move_aux (i + 1) as bs

/-- If no index differs, the loop leaves the previous best move `dflt` in
place. -/
def diff_move (orig cp : List Nat) (dflt : Int × Int) : Int × Int :=
  (diff_move_aux 0 orig cp).getD dflt

/-- `best_ai_move(piles)` from the source: build the root with player 2 and a
fresh memo, evaluate it (filling the memo), re-generate the root's children,
and fold over them keeping the first child whose score strictly exceeds the
best so far (initially `INT_MIN`, with sentinel move `(-1, -1)`), identifying
the chosen move by diffing the child's piles against `piles`; the memo table
is threaded through all child evaluations. -/
def best_ai_move (piles : List Nat) : Int × Int :=
  let m0 := (minimax piles 2 []).2
  let r := (generate_children piles 2).foldl
    (fun acc c =>
      let s := minimax c.1 c.2 acc.2.2
      if s.1 > acc.1 then (s.1, diff_move piles c.1 acc.2.1, s.2)
      else (acc.1, acc.2.1, s.2))
    (INT_MIN, ((-1 : Int), (-1 : Int)), m0)
  r.2.1

/-- A memo table populated only by prior evaluations: every value it stores
under the key of a player-1 or player-2 state is that state's minimax value. -/
def memo_ok (memo : Memo) : Prop :=
  ∀ p q v, (q = 1 ∨ q = 2) → List.lookup (key_of p q) memo = some v →
    v = minimax_nomemo p q

/-- The list of legal moves `(pile index, amount)` in the enumeration order
used by `generate_children`: pile index ascending, then amount ascending. -/
def legal_moves (piles : List Nat) : List (Nat × Nat) :=
  (List.range piles.length).flatMap fun i =>
    (List.range (piles.getD i 0)).map fun t => (i, t + 1)

/- ### Nim-sum lemmas -/

theorem list_xor_nil : list_xor [] = 0 := rfl

theorem list_xor_cons (a : Nat) (t : List Nat) : list_xor (a :: t) = a ^^^ list_xor t := rfl

theorem xor_cancel_left (a b : Nat) : (a ^^^ b) ^^^ a = b := by
  rw [Nat.xor_comm a b, Nat.xor_assoc, Nat.xor_self, Nat.xor_zero]

theorem list_xor_eq_zero_of_terminal {piles : List Nat} (h : is_terminal piles = true) :
    list_xor piles = 0 := by
  induction piles with
  | nil => rfl
  | cons v rest ih =>
    have hall := is_terminal_iff.1 h
    have hv : v = 0 := hall v (List.mem_cons_self _ _)
    have hrest : is_terminal rest = true :=
      is_terminal_iff.2 fun x hx => hall x (List.mem_cons_of_mem _ hx)
    rw [list_xor_cons, hv, ih hrest]
    rfl

/-- Overwriting entry `i` replaces its contribution to the nim-sum. -/
theorem list_xor_set {l : List Nat} {i : Nat} (hi : i < l.length) (x : Nat) :
    list_xor (l.set i x) = list_xor l ^^^ l.getD i 0 ^^^ x := by
  induction l generalizing i with
  | nil => simp at hi
  | cons v rest ih =>
    cases i with
    | zero =>
      simp only [List.set_cons_zero, List.getD_cons_zero, list_xor_cons]
      rw [xor_cancel_left, Nat.xor_comm]
    | succ j =>
      simp only [List.set_cons_succ, List.getD_cons_succ, list_xor_cons]
      rw [ih (by simpa using hi)]
      rw [Nat.xor_assoc, Nat.xor_assoc, Nat.xor_assoc]

/-- From a zero nim-sum, every move produces a non-zero nim-sum. -/
theorem child_list_xor_ne_zero {piles : List Nat} {player : Nat} {c : List Nat × Nat}
    (hc : c ∈ generate_children piles player) (hX : list_xor piles = 0) :
    list_xor c.1 ≠ 0 := by
  rw [mem_generate_children] at hc
  obtain ⟨i, t, hi, ht1, ht2, rfl⟩ := hc
  simp only
  rw [list_xor_set hi, hX, Nat.zero_xor]
  intro h
  have := Nat.xor_eq_zero.1 h
  omega

/-- If the nim-sum of the list has bit `d` set, some entry has bit `d` set. -/
theorem exists_getD_testBit {l : List Nat} {d : Nat}
    (h : (list_xor l).testBit d = true) :
    ∃ i, i < l.length ∧ (l.getD i 0).testBit d = true := by
  induction l with
  | nil => simp [list_xor_nil] at h
  | cons v rest ih =>
    rw [list_xor_cons, Nat.testBit_xor] at h
    rcases hv : v.testBit d with _ | _
    · rw [hv, Bool.false_xor] at h
      obtain ⟨i, hi, hbit⟩ := ih h
      exact ⟨i + 1, by simpa using hi, by simpa using hbit⟩
    · exact ⟨0, by simp, by simpa using hv⟩

/-- From a non-zero nim-sum, some move produces a zero nim-sum (the classical
winning move: cancel the whole nim-sum inside a pile carrying its top bit). -/
theorem exists_zero_xor_child {piles : List Nat} (player : Nat)
    (hX : list_xor piles ≠ 0) :
    ∃ c ∈ generate_children piles player, list_xor c.1 = 0 := by
  obtain ⟨d, hd, hd'⟩ := Nat.exists_most_significant_bit hX
  obtain ⟨i, hi, hbit⟩ := exists_getD_testBit hd
  have hylt : piles.getD i 0 ^^^ list_xor piles < piles.getD i 0 := by
    apply Nat.lt_of_testBit d
    · rw [Nat.testBit_xor, hbit, hd]
      rfl
    · exact hbit
    · intro j hj
      rw [Nat.testBit_xor, hd' j hj, Bool.xor_false]
  refine ⟨(piles.set i
      (piles.getD i 0 - (piles.getD i 0 - (piles.getD i 0 ^^^ list_xor piles))),
      flip_player player), ?_, ?_⟩
  · rw [mem_generate_children]
    exact ⟨i, piles.getD i 0 - (piles.getD i 0 ^^^ list_xor piles), hi,
      by omega, by omega, rfl⟩
  · simp only
    have hback : piles.getD i 0 -
        (piles.getD i 0 - (piles.getD i 0 ^^^ list_xor piles))
        = piles.getD i 0 ^^^ list_xor piles := by omega
    rw [hback, list_xor_set hi]
    rw [Nat.xor_comm (piles.getD i 0) (list_xor piles), Nat.xor_self]

/- ### Folded max/min over score lists -/

theorem foldl_max_eq_self {l : List Int} {a : Int} (h : ∀ x ∈ l, x ≤ a) :
    l.foldl max a = a := by
  induction l generalizing a with
  | nil => rfl
  | cons x t ih =>
    simp only [List.foldl_cons]
    rw [max_eq_left (h x (List.mem_cons_self _ _))]
    exact ih fun y hy => h y (List.mem_cons_of_mem _ hy)

theorem foldl_max_eq {l : List Int} {a b : Int} (hb : b ∈ l)
    (hub : ∀ x ∈ l, x ≤ b) (hab : a ≤ b) :
    l.foldl max a = b := by
  induction l generalizing a with
  | nil => simp at hb
  | cons x t ih =>
    simp only [List.foldl_cons]
    rcases List.mem_cons.1 hb with rfl | hbt
    · rw [max_eq_right hab]
      exact foldl_max_eq_self fun y hy => hub y (List.mem_cons_of_mem _ hy)
    · exact ih hbt (fun y hy => hub y (List.mem_cons_of_mem _ hy))
        (max_le hab (hub x (List.mem_cons_self _ _)))

theorem foldl_min_eq_self {l : List Int} {a : Int} (h : ∀ x ∈ l, a ≤ x) :
    l.foldl min a = a := by
  induction l generalizing a with
  | nil => rfl
  | cons x t ih =>
    simp only [List.foldl_cons]
    rw [min_eq_left (h x (List.mem_cons_self _ _))]
    exact ih fun y hy => h y (List.mem_cons_of_mem _ hy)

theorem foldl_min_eq {l : List Int} {a b : Int} (hb : b ∈ l)
    (hub : ∀ x ∈ l, b ≤ x) (hab : b ≤ a) :
    l.foldl min a = b := by
  induction l generalizing a with
  | nil => simp at hb
  | cons x t ih =>
    simp only [List.foldl_cons]
    rcases List.mem_cons.1 hb with rfl | hbt
    · rw [min_eq_right hab]
      exact foldl_min_eq_self fun y hy => hub y (List.mem_cons_of_mem _ hy)
    · exact ih hbt (fun y hy => hub y (List.mem_cons_of_mem _ hy))
        (le_min hab (hub x (List.mem_cons_self _ _)))

/- ### The closed-form value of the no-memo evaluator -/

/-- Unfolding equation of `minimax_nomemo` with the `attach` scaffolding
removed. -/
theorem minimax_nomemo_eq (piles : List Nat) (player : Nat) :
    minimax_nomemo piles player
      = if is_terminal piles then terminal_score player
        else if player = 2 then
          ((generate_children piles player).map
            fun c => minimax_nomemo c.1 c.2).foldl max INT_MIN
        else
          ((generate_children piles player).map
            fun c => minimax_nomemo c.1 c.2).foldl min INT_MAX := by
  rw [minimax_nomemo]
  rw [List.attach_map_val (generate_children piles player)
    (fun c => minimax_nomemo c.1 c.2)]

theorem terminal_score_flip {player : Nat} (h : player = 1 ∨ player = 2) :
    terminal_score (flip_player player) = - terminal_score player := by
  rcases h with rfl | rfl <;> decide

/-- The Sprague–Grundy closed form for the plain evaluator: a position is
worth `terminal_score player` (a loss for the player to move, from the AI's
perspective) exactly when the nim-sum of the piles is zero. -/
theorem minimax_nomemo_eq_xor_aux (n : Nat) :
    ∀ piles player, piles.sum = n → (player = 1 ∨ player = 2) →
      minimax_nomemo piles player
        = if list_xor piles = 0 then terminal_score player
          else - terminal_score player := by
  induction n using Nat.strong_induction_on with
  | _ n IH =>
    intro piles player hn hp
    by_cases hterm : is_terminal piles = true
    · rw [minimax_nomemo_eq, if_pos hterm,
        if_pos (list_xor_eq_zero_of_terminal hterm)]
    · have hterm' : is_terminal piles = false := by
        simpa using hterm
      have hchild : ∀ c ∈ generate_children piles player,
          minimax_nomemo c.1 c.2
            = if list_xor c.1 = 0 then terminal_score (flip_player player)
              else - terminal_score (flip_player player) := by
        intro c hc
        rw [player_of_mem_generate_children hc]
        exact IH c.1.sum (hn ▸ sum_lt_of_mem_generate_children hc) c.1 _ rfl
          (flip_player_cases player)
      have hne := generate_children_ne_nil player hterm'
      obtain ⟨c0, rest, hcr⟩ := List.exists_cons_of_ne_nil hne
      have hc0 : c0 ∈ generate_children piles player := by
        rw [hcr]; exact List.mem_cons_self _ _
      by_cases hX : list_xor piles = 0
      · -- losing position: every child is a winning position for the opponent
        have hval : ∀ c ∈ generate_children piles player,
            minimax_nomemo c.1 c.2 = terminal_score player := by
          intro c hc
          rw [hchild c hc, if_neg (child_list_xor_ne_zero hc hX),
            terminal_score_flip hp, neg_neg]
        rw [minimax_nomemo_eq, if_neg (by simp [hterm']), if_pos hX]
        have hmem : terminal_score player
            ∈ (generate_children piles player).map fun c => minimax_nomemo c.1 c.2 :=
          List.mem_map.2 ⟨c0, hc0, hval c0 hc0⟩
        rcases hp with rfl | rfl
        · rw [if_neg (by decide)]
          refine foldl_min_eq hmem ?_ (by decide)
          intro x hx
          obtain ⟨c, hc, rfl⟩ := List.mem_map.1 hx
          rw [hval c hc]
        · rw [if_pos rfl]
          refine foldl_max_eq hmem ?_ (by decide)
          intro x hx
          obtain ⟨c, hc, rfl⟩ := List.mem_map.1 hx
          rw [hval c hc]
      · -- winning position: some child has nim-sum zero, all scores are ±1
        obtain ⟨cw, hcw, hcw0⟩ := exists_zero_xor_child player hX
        have hwmem : terminal_score (flip_player player)
            ∈ (generate_children piles player).map fun c => minimax_nomemo c.1 c.2 :=
          List.mem_map.2 ⟨cw, hcw, by rw [hchild cw hcw, if_pos hcw0]⟩
        rw [minimax_nomemo_eq, if_neg (by simp [hterm']), if_neg hX]
        rcases hp with rfl | rfl
        · rw [if_neg (by decide)]
          have : terminal_score (flip_player 1) = -terminal_score 1 := by decide
          rw [this] at hwmem
          refine foldl_min_eq hwmem ?_ (by decide)
          intro x hx
          obtain ⟨c, hc, rfl⟩ := List.mem_map.1 hx
          rw [hchild c hc]
          split <;> decide
        · rw [if_pos rfl]
          have : terminal_score (flip_player 2) = -terminal_score 2 := by decide
          rw [this] at hwmem
          refine foldl_max_eq hwmem ?_ (by decide)
          intro x hx
          obtain ⟨c, hc, rfl⟩ := List.mem_map.1 hx
          rw [hchild c hc]
          split <;> decide

/-- The closed form, stated without the auxiliary sum parameter. -/
theorem minimax_nomemo_eq_xor {piles : List Nat} {player : Nat}
    (hp : player = 1 ∨ player = 2) :
    minimax_nomemo piles player
      = if list_xor piles = 0 then terminal_score player
        else - terminal_score player :=
  minimax_nomemo_eq_xor_aux piles.sum piles player rfl hp

/-- The plain evaluator only ever produces `-1` or `+1`. -/
theorem minimax_nomemo_mem {piles : List Nat} {player : Nat}
    (hp : player = 1 ∨ player = 2) :
    minimax_nomemo piles player = -1 ∨ minimax_nomemo piles player = 1 := by
  rw [minimax_nomemo_eq_xor hp]
  rcases hp with rfl | rfl <;> split <;> simp [terminal_score]

/- ### Permutation invariance -/

theorem list_xor_perm {l l' : List Nat} (h : l.Perm l') :
    list_xor l = list_xor l' := by
  induction h with
  | nil => rfl
  | cons x _ ih => rw [list_xor_cons, list_xor_cons, ih]
  | swap x y t =>
    rw [list_xor_cons, list_xor_cons, list_xor_cons, list_xor_cons,
      ← Nat.xor_assoc, ← Nat.xor_assoc, Nat.xor_comm y x]
  | trans _ _ ih1 ih2 => rw [ih1, ih2]

/-- Pile order never matters to the game value (spec §3, the invariant
memoization depends on). -/
theorem minimax_nomemo_perm {p p' : List Nat} {player : Nat}
    (h : p.Perm p') (hp : player = 1 ∨ player = 2) :
    minimax_nomemo p player = minimax_nomemo p' player := by
  rw [minimax_nomemo_eq_xor hp, minimax_nomemo_eq_xor hp, list_xor_perm h]

/-- Equal canonical keys mean permuted piles and equal players. -/
theorem key_of_eq_iff {p p' : List Nat} {q q' : Nat} :
    key_of p q = key_of p' q' ↔ p.Perm p' ∧ q = q' := by
  constructor
  · intro h
    obtain ⟨h1, h2⟩ := Prod.mk.injEq .. ▸ h
    refine ⟨?_, by simpa using h2⟩
    have hp1 := List.perm_insertionSort (· ≤ ·) p
    have hp2 := List.perm_insertionSort (· ≤ ·) p'
    have h1' : List.insertionSort (· ≤ ·) p = List.insertionSort (· ≤ ·) p' := by
      simpa using h1
    exact hp1.symm.trans (by rw [h1']; exact hp2)
  · rintro ⟨hperm, rfl⟩
    unfold key_of
    congr 1
    exact List.eq_of_perm_of_sorted
      ((List.perm_insertionSort _ p).trans (hperm.trans (List.perm_insertionSort _ p').symm))
      (List.sorted_insertionSort _ p) (List.sorted_insertionSort _ p')

/- ### Memo-table validity -/

theorem memo_ok_nil : memo_ok [] := by
  intro p q v _ h
  simp [List.lookup] at h

/-- Storing the value of the state just evaluated preserves validity: any
state whose key collides with the stored one is a permutation of it with the
same player, hence has the same value. -/
theorem memo_ok_cons {memo : Memo} {piles : List Nat} {player : Nat}
    (hm : memo_ok memo) (hp : player = 1 ∨ player = 2) :
    memo_ok ((key_of piles player, minimax_nomemo piles player) :: memo) := by
  intro p q v hq hlook
  rw [List.lookup_cons] at hlook
  cases hbeq : key_of p q == key_of piles player with
  | false =>
    rw [hbeq] at hlook
    exact hm p q v hq hlook
  | true =>
    rw [hbeq] at hlook
    obtain ⟨hperm, hq'⟩ := key_of_eq_iff.1 (beq_iff_eq.1 hbeq)
    cases hlook
    subst hq'
    exact (minimax_nomemo_perm hperm hq).symm

/- ### Correctness of the fuel-indexed, memoized evaluator -/

/-- One fold step over the children: given that the next fuel level is correct,
the monadic fold computes the plain fold of the children's plain values while
keeping the memo table valid.  `op` is instantiated with `max` and `min`. -/
theorem foldlM_minimax_correct (fuel : Nat) (op : Int → Int → Int)
    (IH : ∀ p q m, p.sum < fuel → (q = 1 ∨ q = 2) → memo_ok m →
      ∃ m', minimax_fuel fuel p q m = some (minimax_nomemo p q, m') ∧ memo_ok m') :
    ∀ (cs : List (List Nat × Nat)) (acc : Int) (m : Memo),
      (∀ c ∈ cs, c.1.sum < fuel ∧ (c.2 = 1 ∨ c.2 = 2)) → memo_ok m →
      ∃ m', cs.foldlM (fun acc c => (minimax_fuel fuel c.1 c.2 acc.2).map
              fun r => (op acc.1 r.1, r.2)) (acc, m)
          = some ((cs.map fun c => minimax_nomemo c.1 c.2).foldl op acc, m')
        ∧ memo_ok m' := by
  intro cs
  induction cs with
  | nil =>
    intro acc m _ hm
    exact ⟨m, rfl, hm⟩
  | cons c cs ih =>
    intro acc m hcs hm
    obtain ⟨hsum, hq⟩ := hcs c (List.mem_cons_self _ _)
    obtain ⟨m1, h1, hm1⟩ := IH c.1 c.2 m hsum hq hm
    obtain ⟨m', h2, hm'⟩ := ih (op acc (minimax_nomemo c.1 c.2)) m1
      (fun d hd => hcs d (List.mem_cons_of_mem _ hd)) hm1
    refine ⟨m', ?_, hm'⟩
    rw [List.foldlM_cons]
    simp only [h1, Option.map_some', Option.bind_eq_bind, Option.some_bind]
    rw [h2, List.map_cons, List.foldl_cons]

/-- Master lemma: with enough fuel and a valid memo table, the memoized
evaluator returns exactly the plain (no-memo) value and leaves the memo table
valid. -/
theorem minimax_fuel_correct :
    ∀ (fuel : Nat) (piles : List Nat) (player : Nat) (memo : Memo),
      piles.sum < fuel → (player = 1 ∨ player = 2) → memo_ok memo →
      ∃ m', minimax_fuel fuel piles player memo
          = some (minimax_nomemo piles player, m') ∧ memo_ok m' := by
  intro fuel
  induction fuel with
  | zero =>
    intro piles player memo h
    exact absurd h (Nat.not_lt_zero _)
  | succ f ih =>
    intro piles player memo hsum hp hm
    by_cases hterm : is_terminal piles = true
    · refine ⟨memo, ?_, hm⟩
      rw [minimax_fuel, if_pos hterm, minimax_nomemo_eq, if_pos hterm]
    · have hterm' : is_terminal piles = false := by simpa using hterm
      have hchildren : ∀ c ∈ generate_children piles player,
          c.1.sum < f ∧ (c.2 = 1 ∨ c.2 = 2) := by
        intro c hc
        constructor
        · have := sum_lt_of_mem_generate_children hc
          omega
        · rw [player_of_mem_generate_children hc]
          exact flip_player_cases player
      cases hlook : List.lookup (key_of piles player) memo with
      | some v =>
        refine ⟨memo, ?_, hm⟩
        rw [minimax_fuel, if_neg (by simp [hterm']), hlook,
          hm piles player v hp hlook]
      | none =>
        rcases hp with rfl | rfl
        · -- human to move: minimizing fold from INT_MAX
          obtain ⟨m', hfold, hm'⟩ := foldlM_minimax_correct f min ih
            (generate_children piles 1) INT_MAX memo hchildren hm
          have hbest : ((generate_children piles 1).map
              fun c => minimax_nomemo c.1 c.2).foldl min INT_MAX
              = minimax_nomemo piles 1 := by
            rw [minimax_nomemo_eq, if_neg (by simp [hterm']), if_neg (by decide)]
          refine ⟨(key_of piles 1, minimax_nomemo piles 1) :: m', ?_, ?_⟩
          · rw [minimax_fuel, if_neg (by simp [hterm']), hlook, if_neg (by decide),
              hfold, hbest]
          · exact memo_ok_cons hm' (Or.inl rfl)
        · -- AI to move: maximizing fold from INT_MIN
          obtain ⟨m', hfold, hm'⟩ := foldlM_minimax_correct f max ih
            (generate_children piles 2) INT_MIN memo hchildren hm
          have hbest : ((generate_children piles 2).map
              fun c => minimax_nomemo c.1 c.2).foldl max INT_MIN
              = minimax_nomemo piles 2 := by
            rw [minimax_nomemo_eq, if_neg (by simp [hterm']), if_pos rfl]
          refine ⟨(key_of piles 2, minimax_nomemo piles 2) :: m', ?_, ?_⟩
          · rw [minimax_fuel, if_neg (by simp [hterm']), hlook, if_pos rfl,
              hfold, hbest]
          · exact memo_ok_cons hm' (Or.inr rfl)

/-- Correctness of the total evaluator: with a valid memo table, `minimax`
computes the plain value and returns a valid memo table. -/
theorem minimax_correct {piles : List Nat} {player : Nat} {memo : Memo}
    (hp : player = 1 ∨ player = 2) (hm : memo_ok memo) :
    (minimax piles player memo).1 = minimax_nomemo piles player
      ∧ memo_ok (minimax piles player memo).2 := by
  obtain ⟨m', h, hm'⟩ := minimax_fuel_correct (piles.sum + 1) piles player memo
    (Nat.lt_succ_self _) hp hm
  unfold minimax
  rw [h]
  exact ⟨rfl, hm'⟩

/- ### Fuel bounds: the recursion depth is exactly the number of objects -/

/-- Fold-step companion of `minimax_fuel_enough`: if every child evaluation
succeeds, the fold succeeds. -/
theorem foldlM_minimax_isSome (fuel : Nat) (op : Int → Int → Int)
    (IH : ∀ p q m, p.sum < fuel → (minimax_fuel fuel p q m).isSome = true) :
    ∀ (cs : List (List Nat × Nat)) (acc : Int) (m : Memo),
      (∀ c ∈ cs, c.1.sum < fuel) →
      (cs.foldlM (fun acc c => (minimax_fuel fuel c.1 c.2 acc.2).map
          fun r => (op acc.1 r.1, r.2)) (acc, m)).isSome = true := by
  intro cs
  induction cs with
  | nil => intro acc m _; rfl
  | cons c cs ih =>
    intro acc m hcs
    obtain ⟨r, hr⟩ := Option.isSome_iff_exists.1
      (IH c.1 c.2 m (hcs c (List.mem_cons_self _ _)))
    rw [List.foldlM_cons]
    simp only [hr, Option.map_some', Option.bind_eq_bind, Option.some_bind]
    exact ih (op acc r.1) r.2 (fun d hd => hcs d (List.mem_cons_of_mem _ hd))

/-- `sum of piles + 1` stack frames always suffice, whatever the memo table:
each move removes at least one object, so the recursion depth along any path
is bounded by the total number of objects. -/
theorem minimax_fuel_enough :
    ∀ (fuel : Nat) (piles : List Nat) (player : Nat) (memo : Memo),
      piles.sum < fuel → (minimax_fuel fuel piles player memo).isSome = true := by
  intro fuel
  induction fuel with
  | zero =>
    intro piles player memo h
    exact absurd h (Nat.not_lt_zero _)
  | succ f ih =>
    intro piles player memo hsum
    by_cases hterm : is_terminal piles = true
    · rw [minimax_fuel, if_pos hterm]; rfl
    · have hterm' : is_terminal piles = false := by simpa using hterm
      have hchildren : ∀ c ∈ generate_children piles player, c.1.sum < f := by
        intro c hc
        have := sum_lt_of_mem_generate_children hc
        omega
      cases hlook : List.lookup (key_of piles player) memo with
      | some v => rw [minimax_fuel, if_neg (by simp [hterm']), hlook]; rfl
      | none =>
        rw [minimax_fuel, if_neg (by simp [hterm']), hlook]
        by_cases hpl : player = 2
        · rw [if_pos hpl]
          obtain ⟨r, hr⟩ := Option.isSome_iff_exists.1
            (foldlM_minimax_isSome f max ih (generate_children piles player)
              INT_MIN memo hchildren)
          rw [hr]
          rfl
        · rw [if_neg hpl]
          obtain ⟨r, hr⟩ := Option.isSome_iff_exists.1
            (foldlM_minimax_isSome f min ih (generate_children piles player)
              INT_MAX memo hchildren)
          rw [hr]
          rfl

/-- The first child generated from a non-terminal state removes exactly one
object (take `1` from the first non-empty pile), so it heads the longest
possible line of play. -/
theorem head_generate_children {piles : List Nat} (player : Nat)
    (h : is_terminal piles = false) :
    ∃ c rest, generate_children piles player = c :: rest
      ∧ c.1.sum + 1 = piles.sum := by
  induction piles with
  | nil => simp [is_terminal] at h
  | cons v t ih =>
    by_cases hv : v = 0
    · subst hv
      have ht : is_terminal t = false := by
        rcases h' : is_terminal t with _ | _
        · rfl
        · exfalso
          have : is_terminal (0 :: t) = true :=
            is_terminal_iff.2 fun x hx => by
              rcases List.mem_cons.1 hx with rfl | hx'
              · rfl
              · exact is_terminal_iff.1 h' x hx'
          rw [this] at h
          simp at h
      obtain ⟨c, rest, hcr, hsum⟩ := ih ht
      rw [generate_children_cons, hcr]
      simp only [List.range_zero, List.map_nil, List.nil_append, List.map_cons]
      refine ⟨_, _, rfl, ?_⟩
      simp only [List.sum_cons]
      omega
    · obtain ⟨k, rfl⟩ : ∃ k, v = k + 1 := ⟨v - 1, by omega⟩
      rw [generate_children_cons, List.range_succ_eq_map, List.map_cons,
        List.cons_append]
      refine ⟨_, _, rfl, ?_⟩
      simp only [List.sum_cons]
      omega

/-- With only `sum of piles` frames and a fresh memo table, the evaluator runs
out of stack: the leftmost line of play removes one object per level and meets
no memo hit, so the depth bound of `minimax_fuel_enough` is exact. -/
theorem minimax_fuel_tight :
    ∀ (n : Nat) (piles : List Nat) (player : Nat), piles.sum = n →
      minimax_fuel n piles player [] = none := by
  intro n
  induction n with
  | zero => intro piles player _; rfl
  | succ k ih =>
    intro piles player hsum
    have hterm : is_terminal piles = false :=
      is_terminal_eq_false_of_sum_pos (by omega)
    obtain ⟨c, rest, hcr, hcsum⟩ := head_generate_children player hterm
    have hc : c.1.sum = k := by omega
    have hnone := ih c.1 c.2 hc
    rw [minimax_fuel, if_neg (by simp [hterm])]
    have hlook : List.lookup (key_of piles player) ([] : Memo) = none := rfl
    rw [hlook]
    by_cases hpl : player = 2
    · rw [if_pos hpl, hcr, List.foldlM_cons]
      simp [hnone]
    · rw [if_neg hpl, hcr, List.foldlM_cons]
      simp [hnone]

/- ### Legality of the selected move -/

/-- The scan of `best_ai_move` over a child obtained by removing `t` objects
from pile `j` stops exactly at index `j` and reports the amount `t`. -/
theorem diff_move_aux_set {l : List Nat} :
    ∀ {i j t : Nat}, j < l.length → 1 ≤ t → t ≤ l.getD j 0 →
      diff_move_aux i l (l.set j (l.getD j 0 - t))
        = some (((i + j : Nat) : Int), (t : Int)) := by
  induction l with
  | nil =>
    intro i j t hj
    simp at hj
  | cons a as ih =>
    intro i j t hj ht1 ht2
    cases j with
    | zero =>
      simp only [List.getD_cons_zero] at ht2 ⊢
      simp only [List.set_cons_zero, diff_move_aux]
      rw [if_pos (by omega)]
      have hcast : ((a - t : Nat) : Int) = (a : Int) - (t : Int) :=
        Int.ofNat_sub ht2
      rw [hcast]
      have : (a : Int) - ((a : Int) - (t : Int)) = (t : Int) := by ring
      rw [this, Nat.add_zero]
    | succ q =>
      simp only [List.getD_cons_succ] at ht2 ⊢
      simp only [List.set_cons_succ, diff_move_aux]
      rw [if_neg (by omega)]
      rw [ih (by simpa using hj) ht1 ht2]
      have : i + 1 + q = i + (q + 1) := by omega
      rw [this]

/-- Whatever the running best move, diffing a legal child against the current
piles yields a legal `(pile index, amount)` pair. -/
theorem diff_move_child_legal {piles : List Nat} {player : Nat}
    {c : List Nat × Nat} (hc : c ∈ generate_children piles player)
    (d : Int × Int) :
    ∃ j t : Nat, diff_move piles c.1 d = ((j : Int), (t : Int))
      ∧ j < piles.length ∧ 1 ≤ t ∧ t ≤ piles.getD j 0 := by
  rw [mem_generate_children] at hc
  obtain ⟨j, t, hj, ht1, ht2, rfl⟩ := hc
  refine ⟨j, t, ?_, hj, ht1, ht2⟩
  simp only [diff_move]
  rw [diff_move_aux_set hj ht1 ht2]
  simp

/-- Child evaluations inside `best_ai_move`: the score is `±1` and the memo
table stays valid. -/
theorem minimax_child_score {piles : List Nat} {c : List Nat × Nat} {m : Memo}
    (hc : c ∈ generate_children piles 2) (hm : memo_ok m) :
    ((minimax c.1 c.2 m).1 = -1 ∨ (minimax c.1 c.2 m).1 = 1)
      ∧ memo_ok (minimax c.1 c.2 m).2 := by
  obtain ⟨cp, cq⟩ := c
  have h1 : cq = 1 := player_of_mem_generate_children hc
  subst h1
  obtain ⟨hv, hm'⟩ := @minimax_correct cp 1 m (Or.inl rfl) hm
  constructor
  · rw [hv]
    exact minimax_nomemo_mem (Or.inl rfl)
  · exact hm'

/-- The legality invariant carried through the selection fold of
`best_ai_move`. -/
def good_acc (piles : List Nat) (acc : Int × (Int × Int) × Memo) : Prop :=
  (acc.1 = -1 ∨ acc.1 = 1)
    ∧ (∃ j t : Nat, acc.2.1 = ((j : Int), (t : Int))
        ∧ j < piles.length ∧ 1 ≤ t ∧ t ≤ piles.getD j 0)
    ∧ memo_ok acc.2.2

theorem best_ai_move_fold_preserves (piles : List Nat) :
    ∀ (cs : List (List Nat × Nat)),
      (∀ c ∈ cs, c ∈ generate_children piles 2) →
      ∀ acc, good_acc piles acc →
      good_acc piles (cs.foldl
        (fun acc c =>
          let s := minimax c.1 c.2 acc.2.2
          if s.1 > acc.1 then (s.1, diff_move piles c.1 acc.2.1, s.2)
          else (acc.1, acc.2.1, s.2)) acc) := by
  intro cs
  induction cs with
  | nil => intro _ acc hacc; exact hacc
  | cons c cs ih =>
    intro hcs acc hacc
    obtain ⟨hv, hmove, hm⟩ := hacc
    have hcmem := hcs c (List.mem_cons_self _ _)
    obtain ⟨hs, hm'⟩ := minimax_child_score hcmem hm
    rw [List.foldl_cons]
    refine ih (fun d hd => hcs d (List.mem_cons_of_mem _ hd)) _ ?_
    by_cases hgt : (minimax c.1 c.2 acc.2.2).1 > acc.1
    · simp only [hgt, if_pos]
      exact ⟨hs, diff_move_child_legal hcmem _, hm'⟩
    · simp only [if_neg hgt]
      exact ⟨hv, hmove, hm'⟩

theorem max?_eq_some_of {l : List Int} {b : Int} (hb : b ∈ l)
    (hub : ∀ x ∈ l, x ≤ b) : l.max? = some b := by
  cases l with
  | nil => simp at hb
  | cons x xs =>
    show some (List.foldl max x xs) = some b
    congr 1
    rcases List.mem_cons.1 hb with rfl | hbt
    · exact foldl_max_eq_self fun y hy => hub y (List.mem_cons_of_mem _ hy)
    · exact foldl_max_eq hbt (fun y hy => hub y (List.mem_cons_of_mem _ hy))
        (hub x (List.mem_cons_self _ _))

theorem min?_eq_some_of {l : List Int} {b : Int} (hb : b ∈ l)
    (hub : ∀ x ∈ l, b ≤ x) : l.min? = some b := by
  cases l with
  | nil => simp at hb
  | cons x xs =>
    show some (List.foldl min x xs) = some b
    congr 1
    rcases List.mem_cons.1 hb with rfl | hbt
    · exact foldl_min_eq_self fun y hy => hub y (List.mem_cons_of_mem _ hy)
    · exact foldl_min_eq hbt (fun y hy => hub y (List.mem_cons_of_mem _ hy))
        (hub x (List.mem_cons_self _ _))

/- ### The claims -/

/-- C1: for every pile configuration and every player to move (`1` = human,
`2` = AI), the minimax evaluation (fresh memo table, as `best_ai_move` invokes
it) matches the nim-sum oracle: it returns `terminal_score player` — a loss
for the player to move, scored from the AI's perspective, i.e. `-1` with AI to
move and `+1` with the human to move — exactly when the bitwise XOR of all
pile sizes is zero, and the negated value otherwise (so with AI to move the
score is `+1` iff the nim-sum is non-zero, and with the human to move it is
`+1` iff the nim-sum is zero). -/
theorem claim_c1_xor_oracle (piles : List Nat) (player : Nat)
    (hp : player = 1 ∨ player = 2) :
    (minimax piles player []).1
      = if list_xor piles = 0 then terminal_score player
        else - terminal_score player := by
  rw [(minimax_correct hp memo_ok_nil).1, minimax_nomemo_eq_xor hp]

theorem claim_c1_witness : (minimax [3, 4, 5] 2 []).1 = 1 := by
  rw [claim_c1_xor_oracle [3, 4, 5] 2 (Or.inr rfl)]
  decide

/-- C2: on an all-zero (or empty) pile list the evaluator answers immediately
with the terminal score — `-1` when the AI (player 2) is to move, `+1` when
the human is to move — and returns the memo table unchanged, for an arbitrary
memo table: neither the memo lookup nor the recursion over children is
reached. -/
theorem claim_c2_terminal_score (piles : List Nat) (player : Nat) (memo : Memo)
    (h : is_terminal piles = true) :
    minimax piles player memo = ((if player = 2 then -1 else 1 : Int), memo) := by
  unfold minimax
  rw [minimax_fuel, if_pos h]
  rfl

theorem claim_c2_witness : minimax [] 2 [] = (-1, []) := by
  rw [claim_c2_terminal_score [] 2 [] rfl]
  decide

/-- C3: on a board with at least one non-empty pile, `best_ai_move` returns a
pair `(pile index, amount removed)` with the index in range and the amount
between `1` and the size of that pile. -/
theorem claim_c3_move_legal (piles : List Nat) (h : ∃ x ∈ piles, x ≠ 0) :
    ∃ j t : Nat, best_ai_move piles = ((j : Int), (t : Int))
      ∧ j < piles.length ∧ 1 ≤ t ∧ t ≤ piles.getD j 0 := by
  have hterm : is_terminal piles = false := by
    rcases h with ⟨x, hx, hx0⟩
    rcases h' : is_terminal piles with _ | _
    · rfl
    · exact absurd (is_terminal_iff.1 h' x hx) hx0
  have hm0 : memo_ok (minimax piles 2 []).2 :=
    (minimax_correct (Or.inr rfl) memo_ok_nil).2
  obtain ⟨c0, rest, hcr⟩ :=
    List.exists_cons_of_ne_nil (generate_children_ne_nil 2 hterm)
  have hc0 : c0 ∈ generate_children piles 2 := by
    rw [hcr]; exact List.mem_cons_self _ _
  obtain ⟨hs, hm1⟩ := minimax_child_score hc0 hm0
  have hgt : (minimax c0.1 c0.2 (minimax piles 2 []).2).1 > INT_MIN := by
    rcases hs with h' | h' <;> rw [h'] <;> decide
  have hfold := best_ai_move_fold_preserves piles rest
    (fun d hd => by rw [hcr]; exact List.mem_cons_of_mem _ hd)
    ((minimax c0.1 c0.2 (minimax piles 2 []).2).1,
      diff_move piles c0.1 ((-1 : Int), (-1 : Int)),
      (minimax c0.1 c0.2 (minimax piles 2 []).2).2)
    ⟨hs, diff_move_child_legal hc0 _, hm1⟩
  obtain ⟨_, ⟨j, t, hjt, hj, ht1, ht2⟩, _⟩ := hfold
  refine ⟨j, t, ?_, hj, ht1, ht2⟩
  unfold best_ai_move
  simp only [hcr, List.foldl_cons]
  rw [if_pos hgt]
  exact hjt

theorem claim_c3_witness :
    ∃ j t : Nat, best_ai_move [3, 4, 5] = ((j : Int), (t : Int))
      ∧ j < [3, 4, 5].length ∧ 1 ≤ t ∧ t ≤ [3, 4, 5].getD j 0 :=
  claim_c3_move_legal [3, 4, 5] (by decide)

/-- C4: the canonical key is invariant under permutation of the piles (same
player).  The embedding's `key_of` operates on a sorted copy, so totality on
empty and all-zero lists and non-mutation of the argument hold by
construction. -/
theorem claim_c4_key_permutation_invariant (piles piles' : List Nat)
    (player : Nat) (h : piles.Perm piles') :
    key_of piles player = key_of piles' player :=
  key_of_eq_iff.2 ⟨h, rfl⟩

theorem claim_c4_witness : key_of [3, 4, 5] 1 = key_of [5, 3, 4] 1 :=
  claim_c4_key_permutation_invariant [3, 4, 5] [5, 3, 4] 1 (by decide)

/-- C5: on a non-terminal state the evaluator's score is the maximum of the
children's scores when the AI (player 2) is to move and the minimum when the
human (player 1) is to move, where each child is scored by an independent
evaluation from a fresh memo table. -/
theorem claim_c5_minmax_of_children (piles : List Nat) (player : Nat)
    (hp : player = 1 ∨ player = 2) (hnt : is_terminal piles = false) :
    (player = 2 →
      ((generate_children piles player).map
        fun c => (minimax c.1 c.2 []).1).max? = some ((minimax piles player []).1))
    ∧ (player = 1 →
      ((generate_children piles player).map
        fun c => (minimax c.1 c.2 []).1).min? = some ((minimax piles player []).1)) := by
  have hroot : (minimax piles player []).1 = minimax_nomemo piles player :=
    (minimax_correct hp memo_ok_nil).1
  have hmap : ((generate_children piles player).map
      fun c => (minimax c.1 c.2 []).1)
      = (generate_children piles player).map fun c => minimax_nomemo c.1 c.2 :=
    List.map_congr_left fun c hc =>
      (minimax_correct
        (by rw [player_of_mem_generate_children hc]; exact flip_player_cases player)
        memo_ok_nil).1
  have hchildval : ∀ c ∈ generate_children piles player,
      minimax_nomemo c.1 c.2
        = if list_xor c.1 = 0 then terminal_score (flip_player player)
          else - terminal_score (flip_player player) := by
    intro c hc
    rw [player_of_mem_generate_children hc]
    exact minimax_nomemo_eq_xor (flip_player_cases player)
  obtain ⟨c0, rest, hcr⟩ :=
    List.exists_cons_of_ne_nil (generate_children_ne_nil player hnt)
  have hc0 : c0 ∈ generate_children piles player := by
    rw [hcr]; exact List.mem_cons_self _ _
  rw [hroot, hmap, minimax_nomemo_eq_xor hp]
  by_cases hX : list_xor piles = 0
  · have hval : ∀ c ∈ generate_children piles player,
        minimax_nomemo c.1 c.2 = terminal_score player := by
      intro c hc
      rw [hchildval c hc, if_neg (child_list_xor_ne_zero hc hX),
        terminal_score_flip hp, neg_neg]
    have hmem : terminal_score player
        ∈ (generate_children piles player).map fun c => minimax_nomemo c.1 c.2 :=
      List.mem_map.2 ⟨c0, hc0, hval c0 hc0⟩
    rw [if_pos hX]
    constructor
    · rintro rfl
      refine max?_eq_some_of hmem ?_
      intro x hx
      obtain ⟨c, hc, rfl⟩ := List.mem_map.1 hx
      rw [hval c hc]
    · rintro rfl
      refine min?_eq_some_of hmem ?_
      intro x hx
      obtain ⟨c, hc, rfl⟩ := List.mem_map.1 hx
      rw [hval c hc]
  · obtain ⟨cw, hcw, hcw0⟩ := exists_zero_xor_child player hX
    have hwmem : terminal_score (flip_player player)
        ∈ (generate_children piles player).map fun c => minimax_nomemo c.1 c.2 :=
      List.mem_map.2 ⟨cw, hcw, by rw [hchildval cw hcw, if_pos hcw0]⟩
    rw [if_neg hX]
    constructor
    · rintro rfl
      have hts : terminal_score (flip_player 2) = -terminal_score 2 := by decide
      rw [hts] at hwmem
      refine max?_eq_some_of hwmem ?_
      intro x hx
      obtain ⟨c, hc, rfl⟩ := List.mem_map.1 hx
      rw [hchildval c hc]
      split <;> decide
    · rintro rfl
      have hts : terminal_score (flip_player 1) = -terminal_score 1 := by decide
      rw [hts] at hwmem
      refine min?_eq_some_of hwmem ?_
      intro x hx
      obtain ⟨c, hc, rfl⟩ := List.mem_map.1 hx
      rw [hchildval c hc]
      split <;> decide

theorem claim_c5_witness :
    ((generate_children [1, 2] 2).map
      fun c => (minimax c.1 c.2 []).1).max? = some ((minimax [1, 2] 2 []).1) :=
  (claim_c5_minmax_of_children [1, 2] 2 (Or.inr rfl) (by decide)).1 rfl

/-- C6: for every state and any memo table populated only by prior
evaluations (`memo_ok`: every stored value is the state's true value), the
memoized evaluator returns exactly the value of the plain recursive minimax
with no memo table, and the memo table it returns is again populated only by
correct values — the memo lookup is a pure optimization. -/
theorem claim_c6_memo_is_pure_optimization (piles : List Nat) (player : Nat)
    (memo : Memo) (hp : player = 1 ∨ player = 2) (hm : memo_ok memo) :
    (minimax piles player memo).1 = minimax_nomemo piles player
      ∧ memo_ok (minimax piles player memo).2 :=
  minimax_correct hp hm

theorem claim_c6_witness :
    (minimax [1, 1] 2 []).1 = minimax_nomemo [1, 1] 2
      ∧ memo_ok (minimax [1, 1] 2 []).2 :=
  claim_c6_memo_is_pure_optimization [1, 1] 2 [] (Or.inr rfl) memo_ok_nil

/-- C7: the child generator yields exactly one child per pile with value
`v > 0` and per `take ∈ 1..v` — the child has that pile reduced by `take`,
all other piles unchanged, and the player flipped — enumerated by pile index
ascending then `take` ascending (a strictly increasing lexicographic move
list, hence no duplicates); zero piles contribute nothing, and a terminal
state yields no children. -/
theorem claim_c7_children_enumeration (piles : List Nat) (player : Nat) :
    generate_children piles player
      = (legal_moves piles).map
          (fun m => (piles.set m.1 (piles.getD m.1 0 - m.2), flip_player player))
    ∧ (∀ i t : Nat, (i, t) ∈ legal_moves piles
        ↔ i < piles.length ∧ 1 ≤ t ∧ t ≤ piles.getD i 0)
    ∧ List.Pairwise (fun a b : Nat × Nat => a.1 < b.1 ∨ (a.1 = b.1 ∧ a.2 < b.2))
        (legal_moves piles)
    ∧ (is_terminal piles = true → generate_children piles player = []) := by
  refine ⟨?_, ?_, ?_, fun h => generate_children_eq_nil_of_terminal h⟩
  · simp only [generate_children, legal_moves, List.map_flatMap, List.map_map]
    rfl
  · intro i t
    simp only [legal_moves, List.mem_flatMap, List.mem_range, List.mem_map]
    constructor
    · rintro ⟨i', hi', t', ht', h⟩
      cases h
      exact ⟨hi', by omega, by omega⟩
    · rintro ⟨hi, ht1, ht2⟩
      exact ⟨i, hi, t - 1, by omega, by rw [Nat.sub_add_cancel ht1]⟩
  · rw [legal_moves, List.pairwise_flatMap]
    constructor
    · intro i _
      rw [List.pairwise_map]
      exact (List.pairwise_lt_range _).imp fun h => Or.inr ⟨rfl, by omega⟩
    · refine (List.pairwise_lt_range _).imp ?_
      intro i j hij x hx y hy
      obtain ⟨ti, _, rfl⟩ := List.mem_map.1 hx
      obtain ⟨tj, _, rfl⟩ := List.mem_map.1 hy
      exact Or.inl hij

theorem claim_c7_witness : generate_children [0, 0] 2 = [] :=
  (claim_c7_children_enumeration [0, 0] 2).2.2.2 rfl

/-- C8: for every state (any non-negative piles, player 1 or 2) and any memo
table populated only by prior evaluations, the evaluator's result is `-1` or
`+1`; in particular the `INT_MIN` / `INT_MAX` sentinels initializing the
max/min accumulators are never returned, every non-terminal state having at
least one child. -/
theorem claim_c8_score_in_range (piles : List Nat) (player : Nat) (memo : Memo)
    (hp : player = 1 ∨ player = 2) (hm : memo_ok memo) :
    ((minimax piles player memo).1 = -1 ∨ (minimax piles player memo).1 = 1)
      ∧ (minimax piles player memo).1 ≠ INT_MIN
      ∧ (minimax piles player memo).1 ≠ INT_MAX := by
  have h := (@minimax_correct piles player memo hp hm).1
  have hv := @minimax_nomemo_mem piles player hp
  rw [← h] at hv
  refine ⟨hv, ?_, ?_⟩ <;> rcases hv with h' | h' <;> rw [h'] <;> decide

theorem claim_c8_witness :
    (((minimax [2, 2] 2 []).1 = -1 ∨ (minimax [2, 2] 2 []).1 = 1)
      ∧ (minimax [2, 2] 2 []).1 ≠ INT_MIN
      ∧ (minimax [2, 2] 2 []).1 ≠ INT_MAX) :=
  claim_c8_score_in_range [2, 2] 2 [] (Or.inr rfl) memo_ok_nil

/-- C9: the recursive evaluation always terminates within `sum of piles + 1`
nested calls — each move strictly decreases the total number of objects, so
the recursion depth is bounded by that total — and the bound is exact: with
only `sum of piles` frames and a fresh memo table the evaluation runs out of
stack along the longest line of play (which removes one object per move). -/
theorem claim_c9_depth_is_total_objects (piles : List Nat) (player : Nat)
    (memo : Memo) :
    (minimax_fuel (piles.sum + 1) piles player memo).isSome = true
      ∧ minimax_fuel piles.sum piles player [] = none :=
  ⟨minimax_fuel_enough _ _ _ _ (Nat.lt_succ_self _),
    minimax_fuel_tight _ _ _ rfl⟩

/-- C10: called on a terminal (all-zero) board — a case the spec leaves
undefined — `best_ai_move` does not fail: no children are generated, the
selection loop body never runs, and the sentinel pair `(-1, -1)` is
returned. -/
theorem claim_c10_terminal_sentinel (piles : List Nat)
    (h : is_terminal piles = true) :
    best_ai_move piles = ((-1 : Int), (-1 : Int)) := by
  unfold best_ai_move
  simp only [generate_children_eq_nil_of_terminal h, List.foldl_nil]

theorem claim_c10_witness : best_ai_move [0, 0, 0] = ((-1 : Int), (-1 : Int)) :=
  claim_c10_terminal_sentinel [0, 0, 0] rfl

end NimGame
